import Mathlib

/-!
Verification of the presence-history aggregation core of
`aat-tracking-history` (`src/index.js`).

The algorithmic core of the program (the body of `processDelivery`,
lines 55-213 of `src/index.js`) is embedded shallowly:

* JS `Date` instants and millisecond arithmetic become `Int`
  (all valid `Date` values are integral millisecond counts);
* JS floating-point percentages become `Rat` (the exact values the
  arithmetic denotes; the spec itself states percentages as exact
  values such as 33.33...);
* the presence-history items become `Event` records holding the parsed
  `data.type` string, the `action` string and the numeric timestamp;
* the JS value `earliestXxxPresent`, which is either the sentinel
  number `0` or a `Date` object (a `Date` is never `=== 0`, so the two
  cases are type-distinguished in JS), becomes `Option Int` with
  `none` for the numeric sentinel;
* the mutable loop over `items` becomes a fold of a `step` function
  over a `BuildState`; reading `.end` of an `undefined` current
  interval (a JS `TypeError`) becomes `Except.error ()`.

Intervals in the JS code also carry the opening event's
`publisherOrSubscriber` and `presenceAction` tags; those fields are
write-only (never read by any computation), so `Interval` keeps only
`start` and `stop` (`stop` embeds the JS field `end`, a Lean keyword).
-/

namespace AAT

/-- A closed presence interval; `stop` embeds the JS field `end`. -/
structure Interval where
  start : Int
  stop : Int
deriving DecidableEq, Repr

/-- One presence-history item: the parsed `data.type` tag, the
presence `action` string and the message timestamp. -/
structure Event where
  type : String
  action : String
  timestamp : Int
deriving DecidableEq, Repr

/-- `index.js` lines 97/111: presence holds exactly when the action is
`enter` or `update`; any other action is an absence signal. -/
def pres (action : String) : Bool :=
  action == "enter" || action == "update"

/-- The mutable state of the event loop, `index.js` lines 75-86.
A current interval is represented by its start instant (the only field
of the open JS object that is ever read). -/
structure BuildState where
  publisherPresent : Bool
  subscriberPresent : Bool
  bothPresent : Bool
  publisherIntervals : List Interval
  currentPublisherInterval : Option Int
  subscriberIntervals : List Interval
  currentSubscriberInterval : Option Int
  bothIntervals : List Interval
  currentBothInterval : Option Int
deriving DecidableEq, Repr

/-- Initial loop state, `index.js` lines 75-86. -/
def initState : BuildState :=
  { publisherPresent := false
    subscriberPresent := false
    bothPresent := false
    publisherIntervals := []
    currentPublisherInterval := none
    subscriberIntervals := []
    currentSubscriberInterval := none
    bothIntervals := []
    currentBothInterval := none }

/-- The transition of a single role track (the identical blocks at
`index.js` lines 98-109, 112-123 and 126-137): if the new presence
differs from the old, either open a fresh interval at `t` or close the
current one at `t`; closing when no interval is open reads `.end` of
`undefined` in JS, a `TypeError`, embedded as `Except.error ()`. -/
def stepRole (t : Int) (newP present : Bool) (cur : Option Int)
    (ivs : List Interval) : Except Unit (Bool × Option Int × List Interval) :=
  if newP = present then
    Except.ok (present, cur, ivs)
  else if newP then
    Except.ok (newP, some t, ivs)
  else
    match cur with
    | none => Except.error ()
    | some c => Except.ok (newP, none, ivs ++ [⟨c, t⟩])

/-- The conjunction-track update (`index.js` lines 125-137), applied
after the per-role update. -/
def stepBoth (t : Int) (newBoth : Bool) (s : BuildState) :
    Except Unit BuildState :=
  match stepRole t newBoth s.bothPresent s.currentBothInterval s.bothIntervals with
  | Except.error u => Except.error u
  | Except.ok (p, c, l) =>
      Except.ok { s with bothPresent := p, currentBothInterval := c,
                         bothIntervals := l }

/-- One iteration of the event loop, `index.js` lines 88-138: events
whose `data.type` is exactly `'PUBLISHER'` drive the publisher track,
every other event drives the subscriber track (the `else` branch at
line 110); then the conjunction of the new publisher presence and the
new subscriber presence drives the BOTH track. -/
def step (e : Event) (s : BuildState) : Except Unit BuildState :=
  if e.type == "PUBLISHER" then
    match stepRole e.timestamp (pres e.action) s.publisherPresent
        s.currentPublisherInterval s.publisherIntervals with
    | Except.error u => Except.error u
    | Except.ok (p, c, l) =>
        stepBoth e.timestamp (pres e.action && s.subscriberPresent)
          { s with publisherPresent := p, currentPublisherInterval := c,
                   publisherIntervals := l }
  else
    match stepRole e.timestamp (pres e.action) s.subscriberPresent
        s.currentSubscriberInterval s.subscriberIntervals with
    | Except.error u => Except.error u
    | Except.ok (p, c, l) =>
        stepBoth e.timestamp (s.publisherPresent && pres e.action)
          { s with subscriberPresent := p, currentSubscriberInterval := c,
                   subscriberIntervals := l }

/-- The whole `for(const item of items)` loop, `index.js` line 88. -/
def runEvents : List Event → BuildState → Except Unit BuildState
  | [], s => Except.ok s
  | e :: rest, s =>
      match step e s with
      | Except.error u => Except.error u
      | Except.ok s' => runEvents rest s'

/-- `truncateIntervals`, `index.js` lines 141-160, as a function of the
interval values: discard an interval that starts at or after the window
end or ends at or before the window start; otherwise clamp its bounds
into the window. -/
def truncateIntervals (ws we : Int) : List Interval → List Interval
  | [] => []
  | iv :: rest =>
      if we ≤ iv.start ∨ iv.stop ≤ ws then
        truncateIntervals ws we rest
      else
        { start := if iv.start < ws then ws else iv.start,
          stop := if we < iv.stop then we else iv.stop }
          :: truncateIntervals ws we rest

/-- The fate of a single interval under `truncateIntervals`
(`index.js` lines 144-157): `none` when discarded, otherwise the
clamped interval. -/
def truncateOne (ws we : Int) (iv : Interval) : Option Interval :=
  if we ≤ iv.start ∨ iv.stop ≤ ws then none
  else some { start := if iv.start < ws then ws else iv.start,
              stop := if we < iv.stop then we else iv.stop }

/-- `truncateIntervals` together with the post-call state of the input
array's interval objects (`index.js` lines 141-160 assign
`interval.start = startDate` / `interval.end = endDate` on the objects
of the input array itself): the first component is the returned
`result` array, the second the values held by the input array's
objects after the call. A discarded interval is returned to the caller
unmodified; a surviving one is clamped in place and the result aliases
the same (now clamped) object. -/
def truncateIntervalsRun (ws we : Int) :
    List Interval → List Interval × List Interval
  | [] => ([], [])
  | iv :: rest =>
      let r := truncateIntervalsRun ws we rest
      if we ≤ iv.start ∨ iv.stop ≤ ws then
        (r.1, iv :: r.2)
      else
        let iv' : Interval :=
          { start := if iv.start < ws then ws else iv.start,
            stop := if we < iv.stop then we else iv.stop }
        (iv' :: r.1, iv' :: r.2)

/-- The aggregate record resolved by `processDelivery`,
`index.js` lines 201-212. -/
structure Stats where
  durationMillis : Int
  publisherPresentMillis : Int
  publisherPresentPercent : Rat
  earliestPublisherPresent : Option Int
  subscriberPresentMillis : Int
  subscriberPresentPercent : Rat
  earliestSubscriberPresent : Option Int
  bothPresentMillis : Int
  bothPresentPercent : Rat
  earliestBothPresent : Option Int
deriving DecidableEq, Repr

/-- The `presentMillis` accumulation (`index.js` lines 177-182 etc.):
sum of `interval.end - interval.start` over the list. -/
def sumMillis (ivs : List Interval) : Int :=
  ivs.foldl (fun a iv => a + (iv.stop - iv.start)) 0

/-- The `earliestXxxPresent` accumulation (`index.js` lines 179-181
etc.): starts as the number `0` (here `none`) and is set to the first
interval's start instant when still unset. -/
def earliestOf (ivs : List Interval) : Option Int :=
  ivs.foldl (fun a iv => if a = none then some iv.start else a) none

/-- The aggregate-statistics computation, `index.js` lines 166-212,
as a function of the three already-truncated interval lists. -/
def statsOf (ws we : Int) (pubIvs subIvs bothIvs : List Interval) : Stats :=
  let durationMillis : Int := we - ws
  { durationMillis := durationMillis
    publisherPresentMillis := sumMillis pubIvs
    publisherPresentPercent :=
      (sumMillis pubIvs : Rat) / (durationMillis : Rat) * 100
    earliestPublisherPresent := earliestOf pubIvs
    subscriberPresentMillis := sumMillis subIvs
    subscriberPresentPercent :=
      (sumMillis subIvs : Rat) / (durationMillis : Rat) * 100
    earliestSubscriberPresent := earliestOf subIvs
    bothPresentMillis := sumMillis bothIvs
    bothPresentPercent :=
      (sumMillis bothIvs : Rat) / (durationMillis : Rat) * 100
    earliestBothPresent := earliestOf bothIvs }

/-- The computational core of `processDelivery` (`index.js` lines
74-212) for a window that passed the bound validation: fold the event
loop, truncate the three interval lists to the window, aggregate. -/
def processDelivery (es : List Event) (ws we : Int) : Except Unit Stats :=
  match runEvents es initState with
  | Except.error u => Except.error u
  | Except.ok s =>
      Except.ok (statsOf ws we
        (truncateIntervals ws we s.publisherIntervals)
        (truncateIntervals ws we s.subscriberIntervals)
        (truncateIntervals ws we s.bothIntervals))

/-- The result of `new Date(x)` in JS: a valid instant or the
`Invalid Date` value whose numeric value is `NaN`. `new Date` never
throws on a string argument, so the `try`/`catch` at `index.js`
lines 56-62 cannot fire for string bounds. -/
inductive JSDate where
  | valid (t : Int) : JSDate
  | invalid : JSDate
deriving DecidableEq, Repr

/-- JS `a >= b` on two `Date` values: numeric comparison in which any
comparison involving `NaN` (an `Invalid Date`) is `false`. -/
def jsGE : JSDate → JSDate → Bool
  | JSDate.valid a, JSDate.valid b => b ≤ a
  | _, _ => false

/-- The window-bound validation of `processDelivery`, `index.js` lines
55-66, applied to the two parsed bounds: the only reachable rejection
is the `startDate >= endDate` check (the `catch` branch is dead code
because `new Date` does not throw); `some msg` is the rejection,
`none` means processing continues. -/
def windowValidation (startDate endDate : JSDate) : Option String :=
  if jsGE startDate endDate then
    some "Incompatible time bounds given; end is not later than start"
  else
    none

/-- Non-decreasing timestamps with all of them at least `n`. -/
def sortedFrom (n : Int) : List Event → Bool
  | [] => true
  | e :: rest => n ≤ e.timestamp && sortedFrom e.timestamp rest

/-- The input-sequence contract: timestamps are non-decreasing. -/
def tsSorted : List Event → Bool
  | [] => true
  | e :: rest => sortedFrom e.timestamp rest

/-- A time instant covered by one of the closed intervals of a list. -/
def coverClosed (ivs : List Interval) (x : Int) : Prop :=
  ∃ iv ∈ ivs, iv.start ≤ x ∧ x < iv.stop

instance (ivs : List Interval) : DecidablePred (coverClosed ivs) := fun x =>
  decidable_of_iff (∃ iv ∈ ivs, iv.start ≤ x ∧ x < iv.stop) Iff.rfl

/-- `okChain lo hi l`: the intervals of `l` are listed chronologically,
each is non-degenerate (`start ≤ stop`), they are pairwise disjoint
(each stops before the next starts) and all lie inside `[lo, hi)`. -/
def okChain (lo hi : Int) : List Interval → Prop
  | [] => True
  | iv :: rest =>
      lo ≤ iv.start ∧ iv.start ≤ iv.stop ∧ iv.stop ≤ hi ∧
        okChain iv.stop hi rest

/-- Well-formedness of one role track of the loop state after all
events with timestamps at most `n` have been processed: the presence
boolean mirrors the single open-interval slot, the closed intervals
are chronological, pairwise disjoint, non-degenerate and end by `n`,
and the open interval (if any) starts after every closed one. -/
structure TrackInv (present : Bool) (cur : Option Int)
    (ivs : List Interval) (n : Int) : Prop where
  slot : present = cur.isSome
  wf : ∀ iv ∈ ivs, iv.start ≤ iv.stop ∧ iv.stop ≤ n
  sorted : ivs.Pairwise fun a b => a.stop ≤ b.start
  curLe : ∀ c, cur = some c → c ≤ n
  lastLe : ∀ c, cur = some c → ∀ iv ∈ ivs, iv.stop ≤ c

/-- The full invariant of the event loop relating the three tracks. -/
structure Inv (s : BuildState) (n : Int) : Prop where
  pub : TrackInv s.publisherPresent s.currentPublisherInterval
    s.publisherIntervals n
  sub : TrackInv s.subscriberPresent s.currentSubscriberInterval
    s.subscriberIntervals n
  both : TrackInv s.bothPresent s.currentBothInterval s.bothIntervals n
  bothEq : s.bothPresent = (s.publisherPresent && s.subscriberPresent)
  openP : ∀ cb, s.currentBothInterval = some cb →
    ∃ cp, s.currentPublisherInterval = some cp ∧ cp ≤ cb
  openS : ∀ cb, s.currentBothInterval = some cb →
    ∃ cs, s.currentSubscriberInterval = some cs ∧ cs ≤ cb
  covP : ∀ x, coverClosed s.bothIntervals x →
    coverClosed s.publisherIntervals x ∨
      ∃ c, s.currentPublisherInterval = some c ∧ c ≤ x
  covS : ∀ x, coverClosed s.bothIntervals x →
    coverClosed s.subscriberIntervals x ∨
      ∃ c, s.currentSubscriberInterval = some c ∧ c ≤ x

/-! ### Basic lemmas about the aggregation folds -/

theorem foldl_sum_shift (l : List Interval) (a : Int) :
    l.foldl (fun x iv => x + (iv.stop - iv.start)) a = a + sumMillis l := by
  induction l generalizing a with
  | nil => simp [sumMillis]
  | cons iv rest ih =>
      rw [List.foldl_cons, ih]
      have h2 := ih (0 + (iv.stop - iv.start))
      simp only [sumMillis, List.foldl_cons] at *
      omega

theorem sumMillis_cons (iv : Interval) (l : List Interval) :
    sumMillis (iv :: l) = (iv.stop - iv.start) + sumMillis l := by
  have h := foldl_sum_shift l (0 + (iv.stop - iv.start))
  simp only [sumMillis, List.foldl_cons] at *
  omega

theorem foldl_earliest_some (l : List Interval) (v : Int) :
    l.foldl (fun a iv => if a = none then some iv.start else a) (some v)
      = some v := by
  induction l with
  | nil => rfl
  | cons iv rest ih => simpa using ih

theorem earliestOf_eq_head (l : List Interval) :
    earliestOf l = l.head?.map Interval.start := by
  cases l with
  | nil => rfl
  | cons iv rest =>
      simp only [earliestOf, List.foldl, List.head?, Option.map]
      simpa using foldl_earliest_some rest iv.start

/-! ### Chains of disjoint ordered intervals inside a bound -/


theorem okChain_le {lo hi : Int} {l : List Interval} (h : okChain lo hi l) :
    ∀ iv ∈ l, lo ≤ iv.start ∧ iv.start ≤ iv.stop ∧ iv.stop ≤ hi := by
  induction l generalizing lo with
  | nil => simp
  | cons iv rest ih =>
      obtain ⟨h1, h2, h3, h4⟩ := h
      intro jv hjv
      rcases List.mem_cons.mp hjv with rfl | hjv
      · exact ⟨h1, h2, h3⟩
      · obtain ⟨g1, g2, g3⟩ := ih h4 jv hjv
        exact ⟨by omega, g2, g3⟩

theorem okChain_of_le_head {lo hi b : Int} {l : List Interval}
    (h : okChain lo hi l) (hb : ∀ iv ∈ l, b ≤ iv.start) :
    okChain b hi l := by
  cases l with
  | nil => trivial
  | cons iv rest =>
      obtain ⟨_, h2, h3, h4⟩ := h
      exact ⟨hb iv (List.mem_cons_self _ _), h2, h3, h4⟩

theorem sumMillis_nonneg {lo hi : Int} {l : List Interval}
    (h : okChain lo hi l) : 0 ≤ sumMillis l := by
  induction l generalizing lo with
  | nil => simp [sumMillis]
  | cons iv rest ih =>
      obtain ⟨_, h2, _, h4⟩ := h
      rw [sumMillis_cons]
      have := ih h4
      omega

theorem sumMillis_le {lo hi : Int} {l : List Interval}
    (h : okChain lo hi l) (hlh : lo ≤ hi) : sumMillis l ≤ hi - lo := by
  induction l generalizing lo with
  | nil => simp [sumMillis]; omega
  | cons iv rest ih =>
      obtain ⟨h1, h2, h3, h4⟩ := h
      rw [sumMillis_cons]
      have := ih h4 h3
      omega

/-! ### Lemmas about window truncation -/

theorem truncateIntervals_eq_filterMap (ws we : Int) (l : List Interval) :
    truncateIntervals ws we l = l.filterMap (truncateOne ws we) := by
  induction l with
  | nil => rfl
  | cons iv rest ih =>
      by_cases h : we ≤ iv.start ∨ iv.stop ≤ ws
      · simp [truncateIntervals, truncateOne, h, ih]
      · simp [truncateIntervals, truncateOne, h, ih]

theorem truncate_mem_start_ge {b c ws we : Int} {l : List Interval}
    (hb : ∀ jv ∈ l, b ≤ jv.start) (hc : c ≤ b) :
    ∀ x ∈ truncateIntervals ws we l, c ≤ x.start := by
  induction l with
  | nil => simp [truncateIntervals]
  | cons iv rest ih =>
      have hb' : ∀ jv ∈ rest, b ≤ jv.start := fun jv h =>
        hb jv (List.mem_cons_of_mem _ h)
      by_cases h : we ≤ iv.start ∨ iv.stop ≤ ws
      · intro x hx
        rw [truncateIntervals, if_pos h] at hx
        exact ih hb' x hx
      · intro x hx
        rw [truncateIntervals, if_neg h] at hx
        rcases List.mem_cons.mp hx with rfl | hx
        · have hbs := hb iv (List.mem_cons_self _ _)
          by_cases hs : iv.start < ws
          · simp only [hs, if_true]
            omega
          · simp only [hs, if_false]
            omega
        · exact ih hb' x hx

theorem truncate_okChain {ws we : Int} {l : List Interval}
    (hwf : ∀ iv ∈ l, iv.start ≤ iv.stop)
    (hp : l.Pairwise fun a b => a.stop ≤ b.start) (hw : ws ≤ we) :
    okChain ws we (truncateIntervals ws we l) := by
  induction l with
  | nil => trivial
  | cons iv rest ih =>
      rw [List.pairwise_cons] at hp
      obtain ⟨hd, hp'⟩ := hp
      have hwf' : ∀ jv ∈ rest, jv.start ≤ jv.stop := fun jv h =>
        hwf jv (List.mem_cons_of_mem _ h)
      have ihr := ih hwf' hp'
      by_cases h : we ≤ iv.start ∨ iv.stop ≤ ws
      · rw [truncateIntervals, if_pos h]
        exact ihr
      · rw [truncateIntervals, if_neg h]
        push_neg at h
        obtain ⟨hswe, hews⟩ := h
        have hse := hwf iv (List.mem_cons_self _ _)
        refine ⟨?_, ?_, ?_, ?_⟩
        · by_cases hs : iv.start < ws <;> simp [hs] <;> omega
        · by_cases hs : iv.start < ws <;> by_cases he : we < iv.stop <;>
            simp [hs, he] <;> omega
        · by_cases he : we < iv.stop <;> simp [he] <;> omega
        · apply okChain_of_le_head ihr
          apply truncate_mem_start_ge hd
          by_cases he : we < iv.stop
          · simp only [he, if_true]
            omega
          · simp only [he, if_false]
            omega

/-! ### Coverage: the set of instants inside some interval of a list -/

theorem coverClosed_nil (x : Int) : ¬ coverClosed [] x := by
  simp [coverClosed]

theorem coverClosed_cons {iv : Interval} {l : List Interval} {x : Int} :
    coverClosed (iv :: l) x ↔
      (iv.start ≤ x ∧ x < iv.stop) ∨ coverClosed l x := by
  simp [coverClosed]

theorem coverClosed_append {l₁ l₂ : List Interval} {x : Int} :
    coverClosed (l₁ ++ l₂) x ↔ coverClosed l₁ x ∨ coverClosed l₂ x := by
  simp [coverClosed, or_and_right, exists_or]

/-- A point is covered by the truncated list exactly when it is covered
by the original list and lies inside the window. -/
theorem coverClosed_truncate {ws we : Int} {l : List Interval} {x : Int} :
    coverClosed (truncateIntervals ws we l) x ↔
      coverClosed l x ∧ ws ≤ x ∧ x < we := by
  induction l with
  | nil => simp [truncateIntervals, coverClosed]
  | cons iv rest ih =>
      by_cases h : we ≤ iv.start ∨ iv.stop ≤ ws
      · rw [truncateIntervals, if_pos h, ih, coverClosed_cons]
        constructor
        · rintro ⟨hc, hx⟩
          exact ⟨Or.inr hc, hx⟩
        · rintro ⟨hc | hc, hx⟩
          · omega
          · exact ⟨hc, hx⟩
      · rw [truncateIntervals, if_neg h, coverClosed_cons, coverClosed_cons,
          ih]
        push_neg at h
        by_cases hs : iv.start < ws <;> by_cases he : we < iv.stop <;>
          simp only [hs, he, if_true, if_false] <;>
          constructor <;> (intro hx; first | omega | (rcases hx with hx | ⟨hc, hx⟩
                                                      · omega
                                                      · exact ⟨Or.inr hc, by omega⟩) |
            (rcases hx with ⟨hx | hc, hx2⟩
             · omega
             · exact Or.inr ⟨hc, by omega⟩))

/-- On a disjoint chronological chain inside `[lo, hi)`, the summed
interval lengths equal the number of covered instants of `[lo, hi)`. -/
theorem sumMillis_eq_card {lo hi : Int} {l : List Interval}
    (h : okChain lo hi l) :
    sumMillis l = (((Finset.Ico lo hi).filter (coverClosed l)).card : Int) := by
  induction l generalizing lo with
  | nil =>
      have hf : (Finset.Ico lo hi).filter (coverClosed []) = ∅ :=
        Finset.filter_false_of_mem fun x _ => coverClosed_nil x
      simp [sumMillis, hf]
  | cons iv rest ih =>
      obtain ⟨h1, h2, h3, h4⟩ := h
      have hsplit : Finset.Ico lo hi = Finset.Ico lo iv.stop ∪ Finset.Ico iv.stop hi :=
        (Finset.Ico_union_Ico_eq_Ico (by omega) h3).symm
      have hdisj :
          Disjoint ((Finset.Ico lo iv.stop).filter (coverClosed (iv :: rest)))
            ((Finset.Ico iv.stop hi).filter (coverClosed (iv :: rest))) :=
        Finset.disjoint_filter_filter
          (Finset.Ico_disjoint_Ico_consecutive lo iv.stop hi)
      have hrest_ge := okChain_le h4
      have hleft :
          (Finset.Ico lo iv.stop).filter (coverClosed (iv :: rest))
            = Finset.Ico iv.start iv.stop := by
        apply Finset.ext
        intro x
        simp only [Finset.mem_filter, Finset.mem_Ico, coverClosed_cons]
        constructor
        · rintro ⟨⟨hx1, hx2⟩, hx3 | hx3⟩
          · omega
          · obtain ⟨jv, hjv, hj1, hj2⟩ := hx3
            have := hrest_ge jv hjv
            omega
        · intro hx
          exact ⟨⟨by omega, hx.2⟩, Or.inl ⟨hx.1, hx.2⟩⟩
      have hright :
          (Finset.Ico iv.stop hi).filter (coverClosed (iv :: rest))
            = (Finset.Ico iv.stop hi).filter (coverClosed rest) := by
        apply Finset.filter_congr
        intro x hx
        rw [Finset.mem_Ico] at hx
        rw [coverClosed_cons]
        constructor
        · rintro (hc | hc)
          · omega
          · exact hc
        · exact Or.inr
      rw [sumMillis_cons, hsplit, Finset.filter_union,
        Finset.card_union_of_disjoint hdisj, hleft, hright, Nat.cast_add,
        Int.card_Ico_of_le _ _ h2, ← ih h4]


/-! ### The loop invariant -/



theorem trackInv_mono {p : Bool} {cur : Option Int} {ivs : List Interval}
    {n m : Int} (hnm : n ≤ m) (h : TrackInv p cur ivs n) :
    TrackInv p cur ivs m where
  slot := h.slot
  wf := fun iv hiv => ⟨(h.wf iv hiv).1, le_trans (h.wf iv hiv).2 hnm⟩
  sorted := h.sorted
  curLe := fun c hc => le_trans (h.curLe c hc) hnm
  lastLe := h.lastLe

theorem trackInv_init (n : Int) : TrackInv false none [] n where
  slot := rfl
  wf := by simp
  sorted := List.Pairwise.nil
  curLe := by simp
  lastLe := by simp

theorem trackInv_open {cur : Option Int} {ivs : List Interval} {n t : Int}
    (h : TrackInv false cur ivs n) (hn : n ≤ t) :
    TrackInv true (some t) ivs t where
  slot := rfl
  wf := fun iv hiv => ⟨(h.wf iv hiv).1, le_trans (h.wf iv hiv).2 hn⟩
  sorted := h.sorted
  curLe := fun c hc => by
    injection hc with hc
    omega
  lastLe := fun c hc iv hiv => by
    injection hc with hc
    have := (h.wf iv hiv).2
    omega

theorem trackInv_close {ivs : List Interval} {c n t : Int}
    (h : TrackInv true (some c) ivs n) (hn : n ≤ t) :
    TrackInv false none (ivs ++ [⟨c, t⟩]) t where
  slot := rfl
  wf := by
    intro iv hiv
    rcases List.mem_append.mp hiv with hiv | hiv
    · exact ⟨(h.wf iv hiv).1, le_trans (h.wf iv hiv).2 hn⟩
    · rcases List.mem_singleton.mp hiv with rfl
      have := h.curLe c rfl
      exact ⟨show c ≤ t by omega, show t ≤ t from le_refl t⟩
  sorted := by
    rw [List.pairwise_append]
    refine ⟨h.sorted, List.pairwise_singleton _ _, ?_⟩
    intro a ha b hb
    rcases List.mem_singleton.mp hb with rfl
    exact h.lastLe c rfl a ha
  curLe := by simp
  lastLe := by simp

/-- Closing the conjunction/publisher interval `[cp, t]`: instants of
already-closed both-intervals covered so far through the open slot at
`cp` are covered by the newly appended closed interval. -/
theorem cov_after_close {bothIvs ivs : List Interval} {cp t n : Int}
    (hcov : ∀ x, coverClosed bothIvs x →
      coverClosed ivs x ∨ ∃ c, (some cp : Option Int) = some c ∧ c ≤ x)
    (hwfB : ∀ iv ∈ bothIvs, iv.start ≤ iv.stop ∧ iv.stop ≤ n) (hn : n ≤ t) :
    ∀ x, coverClosed bothIvs x → coverClosed (ivs ++ [⟨cp, t⟩]) x := by
  intro x hx
  rcases hcov x hx with hc | ⟨c, hc, hcx⟩
  · exact coverClosed_append.mpr (Or.inl hc)
  · injection hc with hc
    obtain ⟨iv, hiv, _, hlt⟩ := hx
    refine coverClosed_append.mpr
      (Or.inr ⟨⟨cp, t⟩, List.mem_singleton.mpr rfl, ?_, ?_⟩)
    · show cp ≤ x
      omega
    · show x < t
      have := (hwfB iv hiv).2
      omega

theorem stepRole_same (t : Int) (p : Bool) (cur : Option Int)
    (ivs : List Interval) : stepRole t p p cur ivs = Except.ok (p, cur, ivs) := by
  simp [stepRole]

theorem stepRole_open (t : Int) (cur : Option Int) (ivs : List Interval) :
    stepRole t true false cur ivs = Except.ok (true, some t, ivs) := by
  simp [stepRole]

theorem stepRole_close (t c : Int) (ivs : List Interval) :
    stepRole t false true (some c) ivs
      = Except.ok (false, none, ivs ++ [⟨c, t⟩]) := by
  simp [stepRole]

theorem slot_none {p : Bool} {cur : Option Int} {ivs : List Interval}
    {n : Int} (h : TrackInv p cur ivs n) (hp : p = false) : cur = none := by
  have hsl := h.slot
  rw [hp] at hsl
  cases hcur : cur with
  | none => rfl
  | some c => rw [hcur] at hsl; simp at hsl

theorem slot_some {p : Bool} {cur : Option Int} {ivs : List Interval}
    {n : Int} (h : TrackInv p cur ivs n) (hp : p = true) :
    ∃ c, cur = some c := by
  have hsl := h.slot
  rw [hp] at hsl
  cases hcur : cur with
  | none => rw [hcur] at hsl; simp at hsl
  | some c => exact ⟨c, rfl⟩

/-- One step of the event loop never fails and preserves the loop
invariant, provided the event's timestamp is at least the bound of the
already-processed prefix. -/
theorem step_inv (e : Event) (s : BuildState) (n : Int) (hI : Inv s n)
    (hn : n ≤ e.timestamp) :
    ∃ s', step e s = Except.ok s' ∧ Inv s' e.timestamp := by
  obtain ⟨hp, hs, hb, hbe, hoP, hoS, hcP, hcS⟩ := hI
  by_cases hty : (e.type == "PUBLISHER") = true
  · -- publisher event
    by_cases hv : pres e.action = s.publisherPresent
    · -- no presence change: the state is untouched
      refine ⟨s, ?_, ?_⟩
      · simp [step, stepBoth, stepRole, hty, hv, ← hbe]
      · exact ⟨trackInv_mono hn hp, trackInv_mono hn hs, trackInv_mono hn hb,
          hbe, hoP, hoS, hcP, hcS⟩
    · cases hV : pres e.action with
      | true =>
        -- publisher enters: open a publisher interval at t
        have hP : s.publisherPresent = false := by
          cases hPc : s.publisherPresent
          · rfl
          · rw [hV, hPc] at hv; exact absurd rfl hv
        have hpn : s.currentPublisherInterval = none := slot_none hp hP
        have hbf : s.bothPresent = false := by rw [hbe, hP]; simp
        have hbn : s.currentBothInterval = none := slot_none hb hbf
        cases hS : s.subscriberPresent with
        | false =>
          -- subscriber absent: BOTH unchanged
          refine ⟨{ s with publisherPresent := true,
                           currentPublisherInterval := some e.timestamp },
                  ?_, ?_⟩
          · simp [step, stepBoth, stepRole, hty, hV, hP, hS, hbf]
          · refine ⟨trackInv_open (hP ▸ hp) hn, trackInv_mono hn hs,
              trackInv_mono hn hb, ?_, ?_, ?_, ?_, ?_⟩
            · show s.bothPresent = (true && s.subscriberPresent)
              rw [hbf, hS]
              rfl
            · intro cb hcb
              rw [hbn] at hcb
              simp at hcb
            · intro cb hcb
              rw [hbn] at hcb
              simp at hcb
            · intro x hx
              rcases hcP x hx with hc | ⟨c, hc, _⟩
              · exact Or.inl hc
              · rw [hpn] at hc; simp at hc
            · exact hcS
        | true =>
          -- subscriber present: BOTH becomes true, open BOTH at t
          obtain ⟨cs, hcs⟩ := slot_some hs hS
          refine ⟨{ s with publisherPresent := true,
                           currentPublisherInterval := some e.timestamp,
                           bothPresent := true,
                           currentBothInterval := some e.timestamp },
                  ?_, ?_⟩
          · simp [step, stepBoth, stepRole, hty, hV, hP, hS, hbf]
          · refine ⟨trackInv_open (hP ▸ hp) hn, trackInv_mono hn hs,
              trackInv_open (hbf ▸ hb) hn, ?_, ?_, ?_, ?_, ?_⟩
            · show (true : Bool) = (true && s.subscriberPresent)
              rw [hS]
              rfl
            · intro cb hcb
              injection hcb with hcb
              exact ⟨e.timestamp, rfl, by omega⟩
            · intro cb hcb
              injection hcb with hcb
              exact ⟨cs, hcs, by have := hs.curLe cs hcs; omega⟩
            · intro x hx
              rcases hcP x hx with hc | ⟨c, hc, _⟩
              · exact Or.inl hc
              · rw [hpn] at hc; simp at hc
            · intro x hx
              rcases hcS x hx with hc | ⟨c, hc, hcx⟩
              · exact Or.inl hc
              · exact Or.inr ⟨c, hc, hcx⟩
      | false =>
        -- publisher leaves: close the open publisher interval at t
        have hP : s.publisherPresent = true := by
          cases hPc : s.publisherPresent
          · rw [hV, hPc] at hv; exact absurd rfl hv
          · rfl
        obtain ⟨cp, hcp⟩ := slot_some hp hP
        have hcov : ∀ x, coverClosed s.bothIntervals x →
            coverClosed s.publisherIntervals x ∨
              ∃ c, (some cp : Option Int) = some c ∧ c ≤ x := by
          intro y hy
          rcases hcP y hy with hc | ⟨c, hc, hcy⟩
          · exact Or.inl hc
          · rw [hcp] at hc
            exact Or.inr ⟨c, hc, hcy⟩
        cases hS : s.subscriberPresent with
        | false =>
          -- subscriber absent: BOTH already false, unchanged
          have hbf : s.bothPresent = false := by rw [hbe, hP, hS]; simp
          have hbn : s.currentBothInterval = none := slot_none hb hbf
          refine ⟨{ s with publisherPresent := false,
                           currentPublisherInterval := none,
                           publisherIntervals :=
                             s.publisherIntervals ++ [⟨cp, e.timestamp⟩] },
                  ?_, ?_⟩
          · simp [step, stepBoth, stepRole, hty, hV, hP, hS, hcp, hbf]
          · refine ⟨trackInv_close (hP ▸ hcp ▸ hp) hn, trackInv_mono hn hs,
              trackInv_mono hn hb, ?_, ?_, ?_, ?_, ?_⟩
            · show s.bothPresent = (false && s.subscriberPresent)
              rw [hbf]
              simp
            · intro cb hcb
              rw [hbn] at hcb
              simp at hcb
            · intro cb hcb
              rw [hbn] at hcb
              simp at hcb
            · intro x hx
              exact Or.inl (cov_after_close hcov hb.wf hn x hx)
            · exact hcS
        | true =>
          -- subscriber present: BOTH was true, close the BOTH interval
          have hbt : s.bothPresent = true := by rw [hbe, hP, hS]; rfl
          obtain ⟨cb, hcb⟩ := slot_some hb hbt
          refine ⟨{ s with publisherPresent := false,
                           currentPublisherInterval := none,
                           publisherIntervals :=
                             s.publisherIntervals ++ [⟨cp, e.timestamp⟩],
                           bothPresent := false,
                           currentBothInterval := none,
                           bothIntervals :=
                             s.bothIntervals ++ [⟨cb, e.timestamp⟩] },
                  ?_, ?_⟩
          · simp [step, stepBoth, stepRole, hty, hV, hP, hS, hcp, hbt, hcb]
          · refine ⟨trackInv_close (hP ▸ hcp ▸ hp) hn, trackInv_mono hn hs,
              trackInv_close (hbt ▸ hcb ▸ hb) hn, ?_, ?_, ?_, ?_, ?_⟩
            · show (false : Bool) = (false && s.subscriberPresent)
              simp
            · intro c hc
              simp at hc
            · intro c hc
              simp at hc
            · intro x hx
              rcases coverClosed_append.mp hx with hx | hx
              · exact Or.inl (cov_after_close hcov hb.wf hn x hx)
              · obtain ⟨iv, hiv, h1, h2⟩ := hx
                rcases List.mem_singleton.mp hiv with rfl
                have h1x : cb ≤ x := h1
                have h2x : x < e.timestamp := h2
                obtain ⟨cp2, hcp2, hcpcb⟩ := hoP cb hcb
                rw [hcp] at hcp2
                injection hcp2 with hcp2
                refine Or.inl (coverClosed_append.mpr (Or.inr
                  ⟨⟨cp, e.timestamp⟩, List.mem_singleton.mpr rfl, ?_, ?_⟩))
                · show cp ≤ x
                  omega
                · exact h2x
            · intro x hx
              rcases coverClosed_append.mp hx with hx | hx
              · exact hcS x hx
              · obtain ⟨iv, hiv, h1, h2⟩ := hx
                rcases List.mem_singleton.mp hiv with rfl
                have h1x : cb ≤ x := h1
                obtain ⟨cs2, hcs2, hcscb⟩ := hoS cb hcb
                exact Or.inr ⟨cs2, hcs2, by omega⟩
  · -- subscriber event (any event whose type is not PUBLISHER)
    by_cases hv : pres e.action = s.subscriberPresent
    · refine ⟨s, ?_, ?_⟩
      · simp [step, stepBoth, stepRole, hty, hv, ← hbe]
      · exact ⟨trackInv_mono hn hp, trackInv_mono hn hs, trackInv_mono hn hb,
          hbe, hoP, hoS, hcP, hcS⟩
    · cases hV : pres e.action with
      | true =>
        -- subscriber enters: open a subscriber interval at t
        have hS : s.subscriberPresent = false := by
          cases hSc : s.subscriberPresent
          · rfl
          · rw [hV, hSc] at hv; exact absurd rfl hv
        have hsn : s.currentSubscriberInterval = none := slot_none hs hS
        have hbf : s.bothPresent = false := by rw [hbe, hS]; simp
        have hbn : s.currentBothInterval = none := slot_none hb hbf
        cases hP : s.publisherPresent with
        | false =>
          refine ⟨{ s with subscriberPresent := true,
                           currentSubscriberInterval := some e.timestamp },
                  ?_, ?_⟩
          · simp [step, stepBoth, stepRole, hty, hV, hS, hP, hbf]
          · refine ⟨trackInv_mono hn hp, trackInv_open (hS ▸ hs) hn,
              trackInv_mono hn hb, ?_, ?_, ?_, ?_, ?_⟩
            · show s.bothPresent = (s.publisherPresent && true)
              rw [hbf, hP]
              simp
            · intro cb hcb
              rw [hbn] at hcb
              simp at hcb
            · intro cb hcb
              rw [hbn] at hcb
              simp at hcb
            · exact hcP
            · intro x hx
              rcases hcS x hx with hc | ⟨c, hc, _⟩
              · exact Or.inl hc
              · rw [hsn] at hc; simp at hc
        | true =>
          obtain ⟨cp, hcp⟩ := slot_some hp hP
          refine ⟨{ s with subscriberPresent := true,
                           currentSubscriberInterval := some e.timestamp,
                           bothPresent := true,
                           currentBothInterval := some e.timestamp },
                  ?_, ?_⟩
          · simp [step, stepBoth, stepRole, hty, hV, hS, hP, hbf]
          · refine ⟨trackInv_mono hn hp, trackInv_open (hS ▸ hs) hn,
              trackInv_open (hbf ▸ hb) hn, ?_, ?_, ?_, ?_, ?_⟩
            · show (true : Bool) = (s.publisherPresent && true)
              rw [hP]
              rfl
            · intro cb hcb
              injection hcb with hcb
              exact ⟨cp, hcp, by have := hp.curLe cp hcp; omega⟩
            · intro cb hcb
              injection hcb with hcb
              exact ⟨e.timestamp, rfl, by omega⟩
            · intro x hx
              rcases hcP x hx with hc | ⟨c, hc, hcx⟩
              · exact Or.inl hc
              · exact Or.inr ⟨c, hc, hcx⟩
            · intro x hx
              rcases hcS x hx with hc | ⟨c, hc, _⟩
              · exact Or.inl hc
              · rw [hsn] at hc; simp at hc
      | false =>
        -- subscriber leaves: close the open subscriber interval at t
        have hS : s.subscriberPresent = true := by
          cases hSc : s.subscriberPresent
          · rw [hV, hSc] at hv; exact absurd rfl hv
          · rfl
        obtain ⟨cs, hcs⟩ := slot_some hs hS
        have hcov : ∀ x, coverClosed s.bothIntervals x →
            coverClosed s.subscriberIntervals x ∨
              ∃ c, (some cs : Option Int) = some c ∧ c ≤ x := by
          intro y hy
          rcases hcS y hy with hc | ⟨c, hc, hcy⟩
          · exact Or.inl hc
          · rw [hcs] at hc
            exact Or.inr ⟨c, hc, hcy⟩
        cases hP : s.publisherPresent with
        | false =>
          have hbf : s.bothPresent = false := by rw [hbe, hP]; simp
          have hbn : s.currentBothInterval = none := slot_none hb hbf
          refine ⟨{ s with subscriberPresent := false,
                           currentSubscriberInterval := none,
                           subscriberIntervals :=
                             s.subscriberIntervals ++ [⟨cs, e.timestamp⟩] },
                  ?_, ?_⟩
          · simp [step, stepBoth, stepRole, hty, hV, hS, hP, hcs, hbf]
          · refine ⟨trackInv_mono hn hp, trackInv_close (hS ▸ hcs ▸ hs) hn,
              trackInv_mono hn hb, ?_, ?_, ?_, ?_, ?_⟩
            · show s.bothPresent = (s.publisherPresent && false)
              rw [hbf]
              simp
            · intro cb hcb
              rw [hbn] at hcb
              simp at hcb
            · intro cb hcb
              rw [hbn] at hcb
              simp at hcb
            · exact hcP
            · intro x hx
              exact Or.inl (cov_after_close hcov hb.wf hn x hx)
        | true =>
          have hbt : s.bothPresent = true := by rw [hbe, hP, hS]; rfl
          obtain ⟨cb, hcb⟩ := slot_some hb hbt
          refine ⟨{ s with subscriberPresent := false,
                           currentSubscriberInterval := none,
                           subscriberIntervals :=
                             s.subscriberIntervals ++ [⟨cs, e.timestamp⟩],
                           bothPresent := false,
                           currentBothInterval := none,
                           bothIntervals :=
                             s.bothIntervals ++ [⟨cb, e.timestamp⟩] },
                  ?_, ?_⟩
          · simp [step, stepBoth, stepRole, hty, hV, hS, hP, hcs, hbt, hcb]
          · refine ⟨trackInv_mono hn hp, trackInv_close (hS ▸ hcs ▸ hs) hn,
              trackInv_close (hbt ▸ hcb ▸ hb) hn, ?_, ?_, ?_, ?_, ?_⟩
            · show (false : Bool) = (s.publisherPresent && false)
              simp
            · intro c hc
              simp at hc
            · intro c hc
              simp at hc
            · intro x hx
              rcases coverClosed_append.mp hx with hx | hx
              · exact hcP x hx
              · obtain ⟨iv, hiv, h1, h2⟩ := hx
                rcases List.mem_singleton.mp hiv with rfl
                have h1x : cb ≤ x := h1
                obtain ⟨cp2, hcp2, hcpcb⟩ := hoP cb hcb
                exact Or.inr ⟨cp2, hcp2, by omega⟩
            · intro x hx
              rcases coverClosed_append.mp hx with hx | hx
              · exact Or.inl (cov_after_close hcov hb.wf hn x hx)
              · obtain ⟨iv, hiv, h1, h2⟩ := hx
                rcases List.mem_singleton.mp hiv with rfl
                have h1x : cb ≤ x := h1
                have h2x : x < e.timestamp := h2
                obtain ⟨cs2, hcs2, hcscb⟩ := hoS cb hcb
                rw [hcs] at hcs2
                injection hcs2 with hcs2
                refine Or.inl (coverClosed_append.mpr (Or.inr
                  ⟨⟨cs, e.timestamp⟩, List.mem_singleton.mpr rfl, ?_, ?_⟩))
                · show cs ≤ x
                  omega
                · exact h2x

theorem initState_inv (n : Int) : Inv initState n where
  pub := trackInv_init n
  sub := trackInv_init n
  both := trackInv_init n
  bothEq := rfl
  openP := by intro cb hcb; simp [initState] at hcb
  openS := by intro cb hcb; simp [initState] at hcb
  covP := by intro x hx; exact absurd hx (coverClosed_nil x)
  covS := by intro x hx; exact absurd hx (coverClosed_nil x)

/-- Folding the event loop over a sorted suffix never fails and
preserves the invariant. -/
theorem runEvents_inv (es : List Event) (s : BuildState) (n : Int)
    (hI : Inv s n) (hsort : sortedFrom n es = true) :
    ∃ s' m, runEvents es s = Except.ok s' ∧ Inv s' m ∧ n ≤ m := by
  induction es generalizing s n with
  | nil => exact ⟨s, n, rfl, hI, le_refl n⟩
  | cons e rest ih =>
      rw [sortedFrom, Bool.and_eq_true] at hsort
      have h1 : n ≤ e.timestamp := of_decide_eq_true hsort.1
      obtain ⟨s1, hstep, hI1⟩ := step_inv e s n hI h1
      obtain ⟨s', m, hrun, hI', hm⟩ := ih s1 e.timestamp hI1 hsort.2
      refine ⟨s', m, ?_, hI', le_trans h1 hm⟩
      rw [runEvents, hstep]
      exact hrun

/-- The event loop on a sorted sequence from the initial state: it
resolves without error and its final state satisfies the invariant. -/
theorem runEvents_ok (es : List Event) (hsort : tsSorted es = true) :
    ∃ s m, runEvents es initState = Except.ok s ∧ Inv s m := by
  cases es with
  | nil => exact ⟨initState, 0, rfl, initState_inv 0⟩
  | cons e rest =>
      rw [tsSorted] at hsort
      have hsf : sortedFrom e.timestamp (e :: rest) = true := by
        rw [sortedFrom, Bool.and_eq_true]
        exact ⟨decide_eq_true (le_refl e.timestamp), hsort⟩
      obtain ⟨s, m, hrun, hI, _⟩ :=
        runEvents_inv (e :: rest) initState e.timestamp
          (initState_inv e.timestamp) hsf
      exact ⟨s, m, hrun, hI⟩

theorem sortedFrom_append_left {n : Int} {es1 es2 : List Event}
    (h : sortedFrom n (es1 ++ es2) = true) : sortedFrom n es1 = true := by
  induction es1 generalizing n with
  | nil => rfl
  | cons e rest ih =>
      rw [List.cons_append, sortedFrom, Bool.and_eq_true] at h
      rw [sortedFrom, Bool.and_eq_true]
      exact ⟨h.1, ih h.2⟩

theorem tsSorted_append_left {es1 es2 : List Event}
    (h : tsSorted (es1 ++ es2) = true) : tsSorted es1 = true := by
  cases es1 with
  | nil => rfl
  | cons e rest =>
      rw [List.cons_append, tsSorted] at h
      rw [tsSorted]
      exact sortedFrom_append_left h

theorem head_start_min {lo hi : Int} {hd : Interval} {tl : List Interval}
    (h : okChain lo hi (hd :: tl)) : ∀ iv ∈ hd :: tl, hd.start ≤ iv.start := by
  obtain ⟨h1, h2, h3, h4⟩ := h
  intro iv hiv
  rcases List.mem_cons.mp hiv with rfl | hiv
  · exact le_refl _
  · have := okChain_le h4 iv hiv
    omega

theorem percent_in_range {m d : Int} (h0 : 0 ≤ m) (hmd : m ≤ d)
    (hd : 0 < d) :
    0 ≤ (m : Rat) / (d : Rat) * 100 ∧ (m : Rat) / (d : Rat) * 100 ≤ 100 := by
  have hdq : (0 : Rat) < (d : Rat) := by exact_mod_cast hd
  have hmq : (0 : Rat) ≤ (m : Rat) := by exact_mod_cast h0
  have hmdq : (m : Rat) ≤ (d : Rat) := by exact_mod_cast hmd
  constructor
  · positivity
  · have hle : (m : Rat) / (d : Rat) ≤ 1 := (div_le_one hdq).mpr hmdq
    calc (m : Rat) / (d : Rat) * 100 ≤ 1 * 100 := by
          exact mul_le_mul_of_nonneg_right hle (by norm_num)
      _ = 100 := by norm_num

/-- Truncated interval lists of a track satisfying the track invariant
form a disjoint chronological chain inside the window. -/
theorem trackInv_truncate_okChain {p : Bool} {cur : Option Int}
    {ivs : List Interval} {n ws we : Int}
    (h : TrackInv p cur ivs n) (hw : ws ≤ we) :
    okChain ws we (truncateIntervals ws we ivs) :=
  truncate_okChain (fun iv hiv => (h.wf iv hiv).1) h.sorted hw

/-! ### Claim theorems -/

/-- C1: for the event sequence `[{PUBLISHER, ENTER, t=0},
{SUBSCRIBER, ENTER, t=10}, {PUBLISHER, LEAVE, t=20},
{SUBSCRIBER, LEAVE, t=30}]` and the window `[0, 30)`, the computed
aggregates satisfy `publisherPresentMillis = 20`,
`subscriberPresentMillis = 20`, `bothPresentMillis = 10` and
`bothPresentPercent = 100/3`. -/
theorem scenario_basic_aggregates :
    ∃ stats, processDelivery
      [⟨"PUBLISHER", "enter", 0⟩, ⟨"SUBSCRIBER", "enter", 10⟩,
       ⟨"PUBLISHER", "leave", 20⟩, ⟨"SUBSCRIBER", "leave", 30⟩] 0 30
      = Except.ok stats ∧
      stats.publisherPresentMillis = 20 ∧
      stats.subscriberPresentMillis = 20 ∧
      stats.bothPresentMillis = 10 ∧
      stats.bothPresentPercent = 100 / 3 := by
  refine ⟨statsOf 0 30 [⟨0, 20⟩] [⟨10, 30⟩] [⟨10, 20⟩], rfl, ?_, ?_, ?_, ?_⟩
  · decide
  · decide
  · decide
  · show ((sumMillis [⟨10, 20⟩] : Int) : Rat) / ((30 - 0 : Int) : Rat) * 100
        = 100 / 3
    norm_num [sumMillis, List.foldl]

/-- C2: for every interval and every valid window `[start, end)`,
`truncateIntervals` treats each interval independently
(`filterMap` of its single-interval fate); an interval lying fully
inside the window (nonempty and contained) is returned unchanged; an
interval with `start >= window.end` or `end <= window.start` is
discarded; any other interval is replaced by exactly the overlap
`[max(start, window.start), min(end, window.end))`. -/
theorem truncate_clipping (l : List Interval) (iv : Interval) (ws we : Int)
    (hw : ws < we) :
    truncateIntervals ws we l = l.filterMap (truncateOne ws we) ∧
    (ws ≤ iv.start → iv.stop ≤ we → iv.start < iv.stop →
      truncateOne ws we iv = some iv) ∧
    ((we ≤ iv.start ∨ iv.stop ≤ ws) → truncateOne ws we iv = none) ∧
    (iv.start < we → ws < iv.stop →
      truncateOne ws we iv = some ⟨max iv.start ws, min iv.stop we⟩) := by
  refine ⟨truncateIntervals_eq_filterMap ws we l, ?_, ?_, ?_⟩
  · intro h1 h2 h3
    rw [truncateOne, if_neg (by omega)]
    rw [if_neg (by omega), if_neg (by omega)]
  · intro h
    rw [truncateOne, if_pos h]
  · intro h1 h2
    rw [truncateOne, if_neg (by omega)]
    refine congrArg some ?_
    rw [Interval.mk.injEq]
    constructor
    · by_cases hs : iv.start < ws
      · rw [if_pos hs]
        omega
      · rw [if_neg hs]
        omega
    · by_cases he : we < iv.stop
      · rw [if_pos he]
        omega
      · rw [if_neg he]
        omega

theorem truncate_clipping_witness :
    truncateOne 0 10 ⟨2, 5⟩ = some ⟨2, 5⟩ :=
  (truncate_clipping [] ⟨2, 5⟩ 0 10 (by decide)).2.1
    (by decide) (by decide) (by decide)

/-- C3 (code bug): the window-bound validation of `processDelivery`
does NOT reject an unparseable bound. `new Date` on a malformed string
yields an `Invalid Date` (numeric value `NaN`) instead of throwing, so
the `catch` branch never fires, and the `startDate >= endDate` check is
`false` whenever a `NaN` is involved; processing then continues with
the invalid bound. Only the `start >= end` check on two parseable
bounds ever rejects. -/
theorem windowValidation_misses_invalid_date :
    windowValidation JSDate.invalid (JSDate.valid 0) = none ∧
    windowValidation (JSDate.valid 0) JSDate.invalid = none ∧
    windowValidation JSDate.invalid JSDate.invalid = none ∧
    windowValidation (JSDate.valid 5) (JSDate.valid 5)
      = some "Incompatible time bounds given; end is not later than start" ∧
    windowValidation (JSDate.valid 7) (JSDate.valid 3)
      = some "Incompatible time bounds given; end is not later than start" :=
  ⟨rfl, rfl, rfl, rfl, rfl⟩

/-- C8 (counterexample): clipping mutates its input interval objects.
After truncating the single interval `[-5, 15)` to the window
`[0, 10)`, the input array's interval object no longer holds its
pre-clipping bounds. -/
theorem truncate_mutates_input :
    ¬ (truncateIntervalsRun 0 10 [⟨-5, 15⟩]).2 = [⟨-5, 15⟩] := by
  decide

/-- C8 (amended): `truncateIntervals` clamps surviving intervals in
place: after the call each input object holds its clamped value (its
original value only when it was discarded), and the returned result
list holds exactly the surviving — already clamped — objects. -/
theorem truncate_mutation_spec (ws we : Int) (l : List Interval) :
    (truncateIntervalsRun ws we l).2
      = l.map (fun iv => (truncateOne ws we iv).getD iv) ∧
    (truncateIntervalsRun ws we l).1 = truncateIntervals ws we l := by
  induction l with
  | nil => exact ⟨rfl, rfl⟩
  | cons iv rest ih =>
      by_cases h : we ≤ iv.start ∨ iv.stop ≤ ws
      · refine ⟨?_, ?_⟩
        · rw [truncateIntervalsRun]
          simp only [h, if_true, List.map_cons, truncateOne, if_pos h,
            Option.getD_none]
          exact congrArg (iv :: ·) ih.1
        · rw [truncateIntervalsRun]
          simp only [h, if_true]
          rw [truncateIntervals, if_pos h]
          exact ih.2
      · refine ⟨?_, ?_⟩
        · rw [truncateIntervalsRun]
          simp only [h, if_false, List.map_cons, truncateOne, if_neg h,
            Option.getD_some]
          exact congrArg _ ih.1
        · rw [truncateIntervalsRun]
          simp only [h, if_false]
          rw [truncateIntervals, if_neg h]
          exact congrArg _ ih.2

theorem stepBoth_preserves {t : Int} {nb : Bool} {s s' : BuildState}
    (h : stepBoth t nb s = Except.ok s') :
    s'.publisherPresent = s.publisherPresent ∧
    s'.currentPublisherInterval = s.currentPublisherInterval ∧
    s'.publisherIntervals = s.publisherIntervals ∧
    s'.subscriberPresent = s.subscriberPresent ∧
    s'.currentSubscriberInterval = s.currentSubscriberInterval ∧
    s'.subscriberIntervals = s.subscriberIntervals := by
  unfold stepBoth at h
  cases hsr : stepRole t nb s.bothPresent s.currentBothInterval
      s.bothIntervals with
  | error u => rw [hsr] at h; cases h
  | ok val =>
      obtain ⟨p, c, l⟩ := val
      rw [hsr] at h
      injection h with h
      subst h
      exact ⟨rfl, rfl, rfl, rfl, rfl, rfl⟩

/-- C10: an event whose role tag is anything other than exactly
`'PUBLISHER'` is processed by the subscriber branch: the step behaves
exactly as if the tag were `'SUBSCRIBER'`, and the publisher state
(presence boolean, open slot, closed list) is untouched. -/
theorem non_publisher_drives_subscriber (e : Event) (s : BuildState)
    (h : (e.type == "PUBLISHER") = false) :
    step e s = step { e with type := "SUBSCRIBER" } s ∧
    ∀ s', step e s = Except.ok s' →
      s'.publisherPresent = s.publisherPresent ∧
      s'.currentPublisherInterval = s.currentPublisherInterval ∧
      s'.publisherIntervals = s.publisherIntervals := by
  constructor
  · have h2 : (("SUBSCRIBER" : String) == "PUBLISHER") = false := rfl
    simp only [step, h, h2, Bool.false_eq_true, if_false]
  · intro s' hs'
    simp only [step, h, Bool.false_eq_true, if_false] at hs'
    cases hsr : stepRole e.timestamp (pres e.action) s.subscriberPresent
        s.currentSubscriberInterval s.subscriberIntervals with
    | error u => rw [hsr] at hs'; cases hs'
    | ok val =>
        obtain ⟨p, c, l⟩ := val
        rw [hsr] at hs'
        obtain ⟨g1, g2, g3, _, _, _⟩ := stepBoth_preserves hs'
        exact ⟨g1, g2, g3⟩

theorem non_publisher_drives_subscriber_witness :
    step ⟨"DRIVER", "enter", 5⟩ initState
      = step ⟨"SUBSCRIBER", "enter", 5⟩ initState ∧
    ∀ s', step ⟨"DRIVER", "enter", 5⟩ initState = Except.ok s' →
      s'.publisherPresent = initState.publisherPresent ∧
      s'.currentPublisherInterval = initState.currentPublisherInterval ∧
      s'.publisherIntervals = initState.publisherIntervals :=
  non_publisher_drives_subscriber ⟨"DRIVER", "enter", 5⟩ initState (by decide)

/-- C9: after processing any prefix of a sequence with non-decreasing
timestamps, the loop never fails (closing an interval never reads the
`end` of an absent current interval), each track's presence boolean
mirrors its single open-interval slot, and every closed interval
satisfies `start ≤ end`. -/
theorem single_open_interval_invariant (es es1 es2 : List Event)
    (happ : es = es1 ++ es2) (hsort : tsSorted es = true) :
    ∃ s, runEvents es1 initState = Except.ok s ∧
      s.publisherPresent = s.currentPublisherInterval.isSome ∧
      s.subscriberPresent = s.currentSubscriberInterval.isSome ∧
      s.bothPresent = s.currentBothInterval.isSome ∧
      (∀ iv ∈ s.publisherIntervals, iv.start ≤ iv.stop) ∧
      (∀ iv ∈ s.subscriberIntervals, iv.start ≤ iv.stop) ∧
      (∀ iv ∈ s.bothIntervals, iv.start ≤ iv.stop) := by
  subst happ
  obtain ⟨s, m, hrun, hI⟩ := runEvents_ok es1 (tsSorted_append_left hsort)
  exact ⟨s, hrun, hI.pub.slot, hI.sub.slot, hI.both.slot,
    fun iv h => (hI.pub.wf iv h).1, fun iv h => (hI.sub.wf iv h).1,
    fun iv h => (hI.both.wf iv h).1⟩

theorem single_open_interval_invariant_witness :
    ∃ s, runEvents [⟨"PUBLISHER", "enter", 0⟩] initState = Except.ok s ∧
      s.publisherPresent = s.currentPublisherInterval.isSome ∧
      s.subscriberPresent = s.currentSubscriberInterval.isSome ∧
      s.bothPresent = s.currentBothInterval.isSome ∧
      (∀ iv ∈ s.publisherIntervals, iv.start ≤ iv.stop) ∧
      (∀ iv ∈ s.subscriberIntervals, iv.start ≤ iv.stop) ∧
      (∀ iv ∈ s.bothIntervals, iv.start ≤ iv.stop) :=
  single_open_interval_invariant
    [⟨"PUBLISHER", "enter", 0⟩, ⟨"PUBLISHER", "leave", 5⟩]
    [⟨"PUBLISHER", "enter", 0⟩] [⟨"PUBLISHER", "leave", 5⟩] rfl (by decide)

/-- C4: an interval opened but never closed before the sequence ends
(the final open slot of a track) is never appended to that track's
output list — every listed interval ends no later than the open slot's
start, so no instant from the open span onward is covered — and the
whole aggregate record is computed from the three closed interval
lists alone. -/
theorem open_interval_dropped (es : List Event) (ws we : Int)
    (hsort : tsSorted es = true) :
    ∃ s, runEvents es initState = Except.ok s ∧
      processDelivery es ws we = Except.ok (statsOf ws we
        (truncateIntervals ws we s.publisherIntervals)
        (truncateIntervals ws we s.subscriberIntervals)
        (truncateIntervals ws we s.bothIntervals)) ∧
      (∀ c, s.currentPublisherInterval = some c →
        (∀ iv ∈ s.publisherIntervals, iv.stop ≤ c) ∧
        ∀ x, c ≤ x → ¬ coverClosed s.publisherIntervals x) ∧
      (∀ c, s.currentSubscriberInterval = some c →
        (∀ iv ∈ s.subscriberIntervals, iv.stop ≤ c) ∧
        ∀ x, c ≤ x → ¬ coverClosed s.subscriberIntervals x) ∧
      (∀ c, s.currentBothInterval = some c →
        (∀ iv ∈ s.bothIntervals, iv.stop ≤ c) ∧
        ∀ x, c ≤ x → ¬ coverClosed s.bothIntervals x) := by
  obtain ⟨s, m, hrun, hI⟩ := runEvents_ok es hsort
  refine ⟨s, hrun, by simp only [processDelivery, hrun], ?_, ?_, ?_⟩
  · intro c hc
    refine ⟨hI.pub.lastLe c hc, ?_⟩
    rintro x hx ⟨iv, hiv, h1, h2⟩
    have := hI.pub.lastLe c hc iv hiv
    omega
  · intro c hc
    refine ⟨hI.sub.lastLe c hc, ?_⟩
    rintro x hx ⟨iv, hiv, h1, h2⟩
    have := hI.sub.lastLe c hc iv hiv
    omega
  · intro c hc
    refine ⟨hI.both.lastLe c hc, ?_⟩
    rintro x hx ⟨iv, hiv, h1, h2⟩
    have := hI.both.lastLe c hc iv hiv
    omega

theorem open_interval_dropped_witness :
    ∃ s, runEvents [⟨"PUBLISHER", "enter", 0⟩] initState = Except.ok s ∧
      processDelivery [⟨"PUBLISHER", "enter", 0⟩] 0 30
        = Except.ok (statsOf 0 30
            (truncateIntervals 0 30 s.publisherIntervals)
            (truncateIntervals 0 30 s.subscriberIntervals)
            (truncateIntervals 0 30 s.bothIntervals)) ∧
      (∀ c, s.currentPublisherInterval = some c →
        (∀ iv ∈ s.publisherIntervals, iv.stop ≤ c) ∧
        ∀ x, c ≤ x → ¬ coverClosed s.publisherIntervals x) ∧
      (∀ c, s.currentSubscriberInterval = some c →
        (∀ iv ∈ s.subscriberIntervals, iv.stop ≤ c) ∧
        ∀ x, c ≤ x → ¬ coverClosed s.subscriberIntervals x) ∧
      (∀ c, s.currentBothInterval = some c →
        (∀ iv ∈ s.bothIntervals, iv.stop ≤ c) ∧
        ∀ x, c ≤ x → ¬ coverClosed s.bothIntervals x) :=
  open_interval_dropped [⟨"PUBLISHER", "enter", 0⟩] 0 30 (by decide)

/-- C6: for every sorted event sequence and every valid window, the
three percentages lie between 0 and 100. -/
theorem percent_bounds (es : List Event) (ws we : Int)
    (hsort : tsSorted es = true) (hw : ws < we) :
    ∃ stats, processDelivery es ws we = Except.ok stats ∧
      0 ≤ stats.publisherPresentPercent ∧
      stats.publisherPresentPercent ≤ 100 ∧
      0 ≤ stats.subscriberPresentPercent ∧
      stats.subscriberPresentPercent ≤ 100 ∧
      0 ≤ stats.bothPresentPercent ∧
      stats.bothPresentPercent ≤ 100 := by
  obtain ⟨s, m, hrun, hI⟩ := runEvents_ok es hsort
  have hcp := trackInv_truncate_okChain hI.pub (le_of_lt hw)
  have hcs := trackInv_truncate_okChain hI.sub (le_of_lt hw)
  have hcb := trackInv_truncate_okChain hI.both (le_of_lt hw)
  have hd : (0 : Int) < we - ws := by omega
  have bp := percent_in_range (sumMillis_nonneg hcp)
    (sumMillis_le hcp (le_of_lt hw)) hd
  have bs := percent_in_range (sumMillis_nonneg hcs)
    (sumMillis_le hcs (le_of_lt hw)) hd
  have bb := percent_in_range (sumMillis_nonneg hcb)
    (sumMillis_le hcb (le_of_lt hw)) hd
  exact ⟨statsOf ws we
      (truncateIntervals ws we s.publisherIntervals)
      (truncateIntervals ws we s.subscriberIntervals)
      (truncateIntervals ws we s.bothIntervals),
    by simp only [processDelivery, hrun], bp.1, bp.2, bs.1, bs.2,
    bb.1, bb.2⟩

theorem percent_bounds_witness :
    ∃ stats, processDelivery
      [⟨"PUBLISHER", "enter", 0⟩, ⟨"SUBSCRIBER", "enter", 10⟩,
       ⟨"PUBLISHER", "leave", 20⟩, ⟨"SUBSCRIBER", "leave", 30⟩] 0 30
      = Except.ok stats ∧
      0 ≤ stats.publisherPresentPercent ∧
      stats.publisherPresentPercent ≤ 100 ∧
      0 ≤ stats.subscriberPresentPercent ∧
      stats.subscriberPresentPercent ≤ 100 ∧
      0 ≤ stats.bothPresentPercent ∧
      stats.bothPresentPercent ≤ 100 :=
  percent_bounds
    [⟨"PUBLISHER", "enter", 0⟩, ⟨"SUBSCRIBER", "enter", 10⟩,
     ⟨"PUBLISHER", "leave", 20⟩, ⟨"SUBSCRIBER", "leave", 30⟩] 0 30
    (by decide) (by decide)

/-- C5 (counterexample): on a sorted event sequence in which the
publisher track is left open at the end (publisher enters and never
leaves), the open publisher interval is dropped while the closed
both-interval survives, so `bothPresentMillis` exceeds
`publisherPresentMillis`. -/
theorem both_exceeds_publisher :
    tsSorted [⟨"PUBLISHER", "enter", 0⟩, ⟨"SUBSCRIBER", "enter", 10⟩,
              ⟨"SUBSCRIBER", "leave", 20⟩] = true ∧
    ∃ stats, processDelivery
      [⟨"PUBLISHER", "enter", 0⟩, ⟨"SUBSCRIBER", "enter", 10⟩,
       ⟨"SUBSCRIBER", "leave", 20⟩] 0 30 = Except.ok stats ∧
      stats.publisherPresentMillis < stats.bothPresentMillis := by
  refine ⟨by decide, statsOf 0 30 [] [⟨10, 20⟩] [⟨10, 20⟩], rfl, by decide⟩

/-- C5 (amended): for every sorted event sequence and valid window,
`bothPresentMillis ≤ publisherPresentMillis` holds provided the
publisher track has no interval left open at the end of the sequence,
and `bothPresentMillis ≤ subscriberPresentMillis` holds provided the
subscriber track has none; without the proviso the inequality can fail
because a trailing open interval is dropped from its own track while
the corresponding closed both-interval is kept. -/
theorem both_le_tracks_of_closed (es : List Event) (ws we : Int)
    (hsort : tsSorted es = true) (hw : ws < we) :
    ∃ s stats, runEvents es initState = Except.ok s ∧
      processDelivery es ws we = Except.ok stats ∧
      (s.publisherPresent = false →
        stats.bothPresentMillis ≤ stats.publisherPresentMillis) ∧
      (s.subscriberPresent = false →
        stats.bothPresentMillis ≤ stats.subscriberPresentMillis) := by
  obtain ⟨s, m, hrun, hI⟩ := runEvents_ok es hsort
  have hcb := trackInv_truncate_okChain hI.both (le_of_lt hw)
  refine ⟨s, statsOf ws we
      (truncateIntervals ws we s.publisherIntervals)
      (truncateIntervals ws we s.subscriberIntervals)
      (truncateIntervals ws we s.bothIntervals),
    hrun, by simp only [processDelivery, hrun], ?_, ?_⟩
  · intro hP
    have hpn : s.currentPublisherInterval = none := slot_none hI.pub hP
    have hsub : ∀ x, coverClosed s.bothIntervals x →
        coverClosed s.publisherIntervals x := by
      intro x hx
      rcases hI.covP x hx with hc | ⟨c, hc, _⟩
      · exact hc
      · rw [hpn] at hc; cases hc
    have hck := trackInv_truncate_okChain hI.pub (le_of_lt hw)
    show sumMillis (truncateIntervals ws we s.bothIntervals)
        ≤ sumMillis (truncateIntervals ws we s.publisherIntervals)
    rw [sumMillis_eq_card hcb, sumMillis_eq_card hck]
    have hss : (Finset.Ico ws we).filter
          (coverClosed (truncateIntervals ws we s.bothIntervals))
        ⊆ (Finset.Ico ws we).filter
          (coverClosed (truncateIntervals ws we s.publisherIntervals)) := by
      intro x hx
      rw [Finset.mem_filter] at hx
      rw [Finset.mem_filter]
      refine ⟨hx.1, ?_⟩
      have h2 := coverClosed_truncate.mp hx.2
      exact coverClosed_truncate.mpr ⟨hsub x h2.1, h2.2⟩
    exact_mod_cast Finset.card_le_card hss
  · intro hS
    have hsn : s.currentSubscriberInterval = none := slot_none hI.sub hS
    have hsub : ∀ x, coverClosed s.bothIntervals x →
        coverClosed s.subscriberIntervals x := by
      intro x hx
      rcases hI.covS x hx with hc | ⟨c, hc, _⟩
      · exact hc
      · rw [hsn] at hc; cases hc
    have hck := trackInv_truncate_okChain hI.sub (le_of_lt hw)
    show sumMillis (truncateIntervals ws we s.bothIntervals)
        ≤ sumMillis (truncateIntervals ws we s.subscriberIntervals)
    rw [sumMillis_eq_card hcb, sumMillis_eq_card hck]
    have hss : (Finset.Ico ws we).filter
          (coverClosed (truncateIntervals ws we s.bothIntervals))
        ⊆ (Finset.Ico ws we).filter
          (coverClosed (truncateIntervals ws we s.subscriberIntervals)) := by
      intro x hx
      rw [Finset.mem_filter] at hx
      rw [Finset.mem_filter]
      refine ⟨hx.1, ?_⟩
      have h2 := coverClosed_truncate.mp hx.2
      exact coverClosed_truncate.mpr ⟨hsub x h2.1, h2.2⟩
    exact_mod_cast Finset.card_le_card hss

theorem both_le_tracks_of_closed_witness :
    ∃ s stats, runEvents
      [⟨"PUBLISHER", "enter", 0⟩, ⟨"SUBSCRIBER", "enter", 10⟩,
       ⟨"PUBLISHER", "leave", 20⟩, ⟨"SUBSCRIBER", "leave", 30⟩] initState
      = Except.ok s ∧
      processDelivery
        [⟨"PUBLISHER", "enter", 0⟩, ⟨"SUBSCRIBER", "enter", 10⟩,
         ⟨"PUBLISHER", "leave", 20⟩, ⟨"SUBSCRIBER", "leave", 30⟩] 0 30
        = Except.ok stats ∧
      (s.publisherPresent = false →
        stats.bothPresentMillis ≤ stats.publisherPresentMillis) ∧
      (s.subscriberPresent = false →
        stats.bothPresentMillis ≤ stats.subscriberPresentMillis) :=
  both_le_tracks_of_closed
    [⟨"PUBLISHER", "enter", 0⟩, ⟨"SUBSCRIBER", "enter", 10⟩,
     ⟨"PUBLISHER", "leave", 20⟩, ⟨"SUBSCRIBER", "leave", 30⟩] 0 30
    (by decide) (by decide)

/-- C7: each track's `earliest...Present` equals the start instant of
the first surviving interval of that track (which is chronologically
minimal among all surviving intervals), and is the `none` sentinel
exactly when no interval of the track survives clipping. -/
theorem earliest_first_surviving (es : List Event) (ws we : Int)
    (hsort : tsSorted es = true) (hw : ws ≤ we) :
    ∃ s stats, runEvents es initState = Except.ok s ∧
      processDelivery es ws we = Except.ok stats ∧
      (stats.earliestPublisherPresent
          = (truncateIntervals ws we s.publisherIntervals).head?.map
              Interval.start ∧
        (∀ hd, (truncateIntervals ws we s.publisherIntervals).head? = some hd →
          ∀ iv ∈ truncateIntervals ws we s.publisherIntervals,
            hd.start ≤ iv.start) ∧
        (stats.earliestPublisherPresent = none ↔
          truncateIntervals ws we s.publisherIntervals = [])) ∧
      (stats.earliestSubscriberPresent
          = (truncateIntervals ws we s.subscriberIntervals).head?.map
              Interval.start ∧
        (∀ hd, (truncateIntervals ws we s.subscriberIntervals).head? = some hd →
          ∀ iv ∈ truncateIntervals ws we s.subscriberIntervals,
            hd.start ≤ iv.start) ∧
        (stats.earliestSubscriberPresent = none ↔
          truncateIntervals ws we s.subscriberIntervals = [])) ∧
      (stats.earliestBothPresent
          = (truncateIntervals ws we s.bothIntervals).head?.map
              Interval.start ∧
        (∀ hd, (truncateIntervals ws we s.bothIntervals).head? = some hd →
          ∀ iv ∈ truncateIntervals ws we s.bothIntervals,
            hd.start ≤ iv.start) ∧
        (stats.earliestBothPresent = none ↔
          truncateIntervals ws we s.bothIntervals = [])) := by
  obtain ⟨s, m, hrun, hI⟩ := runEvents_ok es hsort
  have hfirst : ∀ (l : List Interval), okChain ws we l →
      ∀ hd, l.head? = some hd → ∀ iv ∈ l, hd.start ≤ iv.start := by
    intro l hc hd hhd iv hiv
    cases l with
    | nil => cases hhd
    | cons a tl =>
        rw [List.head?_cons] at hhd
        injection hhd with hhd
        subst hhd
        exact head_start_min hc iv hiv
  have hnone : ∀ (l : List Interval),
      earliestOf l = none ↔ l = [] := by
    intro l
    rw [earliestOf_eq_head]
    cases l with
    | nil => simp
    | cons a tl => simp
  refine ⟨s, statsOf ws we
      (truncateIntervals ws we s.publisherIntervals)
      (truncateIntervals ws we s.subscriberIntervals)
      (truncateIntervals ws we s.bothIntervals),
    hrun, by simp only [processDelivery, hrun],
    ⟨earliestOf_eq_head _,
      hfirst _ (trackInv_truncate_okChain hI.pub hw), hnone _⟩,
    ⟨earliestOf_eq_head _,
      hfirst _ (trackInv_truncate_okChain hI.sub hw), hnone _⟩,
    ⟨earliestOf_eq_head _,
      hfirst _ (trackInv_truncate_okChain hI.both hw), hnone _⟩⟩

theorem earliest_first_surviving_witness :
    ∃ s stats, runEvents
      [⟨"PUBLISHER", "enter", 0⟩, ⟨"SUBSCRIBER", "enter", 10⟩,
       ⟨"PUBLISHER", "leave", 20⟩, ⟨"SUBSCRIBER", "leave", 30⟩] initState
      = Except.ok s ∧
      processDelivery
        [⟨"PUBLISHER", "enter", 0⟩, ⟨"SUBSCRIBER", "enter", 10⟩,
         ⟨"PUBLISHER", "leave", 20⟩, ⟨"SUBSCRIBER", "leave", 30⟩] 0 30
        = Except.ok stats ∧
      (stats.earliestPublisherPresent
          = (truncateIntervals 0 30 s.publisherIntervals).head?.map
              Interval.start ∧
        (∀ hd, (truncateIntervals 0 30 s.publisherIntervals).head? = some hd →
          ∀ iv ∈ truncateIntervals 0 30 s.publisherIntervals,
            hd.start ≤ iv.start) ∧
        (stats.earliestPublisherPresent = none ↔
          truncateIntervals 0 30 s.publisherIntervals = [])) ∧
      (stats.earliestSubscriberPresent
          = (truncateIntervals 0 30 s.subscriberIntervals).head?.map
              Interval.start ∧
        (∀ hd, (truncateIntervals 0 30 s.subscriberIntervals).head? = some hd →
          ∀ iv ∈ truncateIntervals 0 30 s.subscriberIntervals,
            hd.start ≤ iv.start) ∧
        (stats.earliestSubscriberPresent = none ↔
          truncateIntervals 0 30 s.subscriberIntervals = [])) ∧
      (stats.earliestBothPresent
          = (truncateIntervals 0 30 s.bothIntervals).head?.map
              Interval.start ∧
        (∀ hd, (truncateIntervals 0 30 s.bothIntervals).head? = some hd →
          ∀ iv ∈ truncateIntervals 0 30 s.bothIntervals,
            hd.start ≤ iv.start) ∧
        (stats.earliestBothPresent = none ↔
          truncateIntervals 0 30 s.bothIntervals = [])) :=
  earliest_first_surviving
    [⟨"PUBLISHER", "enter", 0⟩, ⟨"SUBSCRIBER", "enter", 10⟩,
     ⟨"PUBLISHER", "leave", 20⟩, ⟨"SUBSCRIBER", "leave", 30⟩] 0 30
    (by decide) (by decide)

end AAT
